import Mathlib

/-!
Verification of the Conditional Distribution Similarity (CDS) pairwise
causal-direction estimator (`causality/pairwise_models/CDS.py`).

The numeric pipeline is shallowly embedded over `ℝ` (every IEEE float value
is a real number; the embedding uses exact real arithmetic, so rounding of
individual operations is not modelled).  Lists stand for one-dimensional
numpy arrays, and `Except CdsErr` models Python exception propagation for
the `assert` inside `cds_score`.  A separate small model of Python values
(`PyVal`) is used for the unhashable-element behaviour of `count_unique`,
and a store-passing model (`Store`) is used for the mutation/frame claims.
-/

namespace CDSModel

/-- `np.mean(l)`: sum divided by length (Lean's `x / 0 = 0` convention only
matters for the empty list, which numpy maps to NaN). -/
noncomputable def npMean (l : List ℝ) : ℝ := l.sum / l.length

/-- `np.var(l)` (population variance, numpy's default `ddof=0`). -/
noncomputable def npVarP (l : List ℝ) : ℝ :=
  npMean (l.map (fun v => (v - npMean l) ^ 2))

/-- `np.std(l)`: square root of the population variance. -/
noncomputable def npStd (l : List ℝ) : ℝ := Real.sqrt (npVarP l)

/-- `np.round(v)`: round half to even (numpy/IEEE default rounding); for
non-halves this is rounding to the nearest integer. -/
noncomputable def npRound (v : ℝ) : ℝ :=
  if Int.fract v = 1 / 2 then
    (if ⌊v⌋ % 2 = 0 then (⌊v⌋ : ℝ) else (⌊v⌋ : ℝ) + 1)
  else (round v : ℤ)

/-- `arr.astype(int)` on a float value: truncation toward zero. -/
noncomputable def npTrunc (v : ℝ) : ℤ := if 0 ≤ v then ⌊v⌋ else ⌈v⌉

/-- In-place clamp of the high side, `x[x > vmax] = vmax` (elementwise). -/
noncomputable def clipHigh (vmax : ℝ) (l : List ℝ) : List ℝ :=
  l.map (fun v => if vmax < v then vmax else v)

/-- In-place clamp of the low side, `x[x < vmin] = vmin` (elementwise). -/
noncomputable def clipLow (vmin : ℝ) (l : List ℝ) : List ℝ :=
  l.map (fun v => if v < vmin then vmin else v)

def BINARY : String := "Binary"
def CATEGORICAL : String := "Categorical"
def NUMERICAL : String := "Numerical"

/-- `numerical(tp)`: the type tag equals `"Numerical"` (the `assert
type(tp) is str` in the source is enforced by Lean's typing). -/
def numerical (tp : String) : Bool := tp == NUMERICAL

/-- `count_unique(x) = len(set(x))` for numeric (hashable) data: the number
of distinct elements. -/
noncomputable def count_unique (x : List ℝ) : ℕ := x.dedup.length

/-- `sorted(list(set(x)))`. -/
noncomputable def sortedDedup (x : List ℝ) : List ℝ :=
  x.dedup.mergeSort (fun a b => decide (a ≤ b))

/-- `discretized_values(x, tx, ffactor, maxdev)`: the integer range
`[-ffactor*maxdev, ffactor*maxdev]` in the continuous case, the sorted
unique values otherwise.  (Python ints compare equal to the equal floats,
so both branches live in `ℝ`.) -/
noncomputable def discretized_values (x : List ℝ) (tx : String) (ffactor maxdev : ℕ) :
    List ℝ :=
  if numerical tx = true ∧ count_unique x > 2 * ffactor * maxdev + 1 then
    (List.range (2 * ffactor * maxdev + 1)).map
      (fun (i : ℕ) => ((((i : ℤ) - ((ffactor * maxdev : ℕ) : ℤ)) : ℤ) : ℝ))
  else sortedDedup x

/-- `len_discretized_values(x, tx, ffactor, maxdev)`. -/
noncomputable def len_discretized_values (x : List ℝ) (tx : String) (ffactor maxdev : ℕ) :
    ℕ :=
  (discretized_values x tx ffactor maxdev).length

/-- `discretized_sequence(x, tx, ffactor, maxdev, norm)`: two-pass
standardization (when `norm`), scaling by `ffactor`, rounding, then clipping
into `[-ffactor*maxdev, ffactor*maxdev]` — in the branch actually taken;
otherwise the input is returned unchanged. -/
noncomputable def discretized_sequence (x : List ℝ) (tx : String) (ffactor maxdev : ℕ)
    (norm : Bool) : List ℝ :=
  if norm = false ∨ (numerical tx = true ∧
      count_unique x > len_discretized_values x tx ffactor maxdev) then
    let x1 := if norm then
        let xa := x.map (fun v => (v - npMean x) / npStd x)
        let xf := xa.filter (fun v => decide (|v| < (maxdev : ℝ)))
        xa.map (fun v => (v - npMean xf) / npStd xf)
      else x
    let x2 := x1.map (fun v => npRound (v * (ffactor : ℝ)))
    clipLow (-((ffactor * maxdev : ℕ) : ℝ)) (clipHigh ((ffactor * maxdev : ℕ) : ℝ) x2)
  else x

/-- `discretized_sequences(x, y, ffactor, maxdev)`: both sequences
discretized with the `"Numerical"` tag and `norm=True`. -/
noncomputable def discretized_sequences (x y : List ℝ) (ffactor maxdev : ℕ) :
    List ℝ × List ℝ :=
  (discretized_sequence x NUMERICAL ffactor maxdev true,
   discretized_sequence y NUMERICAL ffactor maxdev true)

/-- `Counter(l)[a]`: the number of occurrences of `a` in `l` (Python
`Counter` compares numeric values with `==`). -/
noncomputable def countR (l : List ℝ) (a : ℝ) : ℕ :=
  l.countP (fun v => decide (v = a))

/-- The error raised by the failing `assert` inside `cds_score`. -/
inductive CdsErr where
  | assertionError
deriving DecidableEq

/-- Elementwise product summed, `sum(py * window)` on two equal-length
arrays. -/
def dotR (a b : List ℝ) : ℝ :=
  ((a.zip b).map (fun p => p.1 * p.2)).sum

/-- Python `max(l)` on a nonempty list (`0` as junk value for `[]`). -/
noncomputable def maxR : List ℝ → ℝ
  | [] => 0
  | h :: t => t.foldl max h

/-- `pyxax = np.array([0]*(ny-1) + pyxa + [0]*(ny-1))`: the conditional
histogram flanked by `ny-1` zeros on each side. -/
def pyxax_pad (pyxa : List ℝ) (ny : ℕ) : List ℝ :=
  List.replicate (ny - 1) 0 ++ pyxa ++ List.replicate (ny - 1) 0

/-- `xcorr = [sum(py * pyxax[i:i+ny]) for i in range(2*ny-1)]`. -/
def xcorr_list (py pyxa : List ℝ) (ny : ℕ) : List ℝ :=
  (List.range (2 * ny - 1)).map
    (fun i => dotR py (((pyxax_pad pyxa ny).drop i).take ny))

/-- `imax = xcorr.index(max(xcorr))`: the first index achieving the
maximum. -/
noncomputable def imax_of (xs : List ℝ) : ℕ := xs.indexOf (maxR xs)

/-- `np.array([0]*(2*ny-2-imax) + pyxa + [0]*imax)`: the re-padded
conditional histogram. -/
def repad (pyxa : List ℝ) (ny imax : ℕ) : List ℝ :=
  List.replicate (2 * ny - 2 - imax) 0 ++ pyxa ++ List.replicate imax 0

/-- The whole low-cardinality alignment: cross-correlate the zero-padded
histogram against the marginal, take the first-maximum offset, re-pad. -/
noncomputable def align_hist (py pyxa : List ℝ) (ny : ℕ) : List ℝ :=
  repad pyxa ny (imax_of (xcorr_list py pyxa ny))

/-- The conditional subset `y_te[xd == a]` (numpy boolean indexing on
index-aligned arrays). -/
noncomputable def condSubset (xd y_te : List ℝ) (a : ℝ) : List ℝ :=
  ((xd.zip y_te).filter (fun p => decide (p.1 = a))).map Prod.snd

/-- Continuous path of the conditional loop:
`yx = (yx - np.mean(yx)) / np.std(y_te)` followed by
`discretized_sequence(yx, "Numerical", ffactor, maxdev, norm=False)`. -/
noncomputable def cond_discretized (ffactor maxdev : ℕ) (xd y_te : List ℝ) (a : ℝ) :
    List ℝ :=
  let yx := condSubset xd y_te a
  let yx1 := yx.map (fun v => (v - npMean yx) / npStd y_te)
  discretized_sequence yx1 NUMERICAL ffactor maxdev false

/-- One conditional histogram `pyxa` for the cause-bin `a`, before the
count assertion and normalization: either the continuous-path histogram
over the integer bin range, or the alignment-path histogram over
`yrange`. -/
noncomputable def pyxaOf (ffactor maxdev : ℕ) (xd y_te yd : List ℝ) (a : ℝ) : List ℝ :=
  let yrange := sortedDedup yd
  let ny := yrange.length
  let py := yrange.map (fun i => (countR yd i : ℝ))
  let pyn := py.map (fun v => v / py.sum)
  if count_unique y_te > len_discretized_values y_te NUMERICAL ffactor maxdev then
    let yx2 := cond_discretized ffactor maxdev xd y_te a
    (discretized_values y_te NUMERICAL ffactor maxdev).map
      (fun i => (yx2.countP (fun v => decide ((npTrunc v : ℝ) = i)) : ℝ))
  else
    let pyxa0 := yrange.map (fun i => (countR (condSubset xd y_te a) i : ℝ))
    align_hist pyn pyxa0 ny

/-- `assert pyxa.sum() == cx[a]` modelled as a checked step: on success
the row passes through, on violation an `AssertionError` is raised. -/
noncomputable def checkRow (row : List ℝ) (cnt : ℝ) : Except CdsErr (List ℝ) :=
  if row.sum = cnt then Except.ok row else Except.error CdsErr.assertionError

/-- The qualifying cause-bins: keys `a` of `Counter(xd)` with
`cx[a] > minc`. -/
noncomputable def cds_quals (minc : ℕ) (xd : List ℝ) : List ℝ :=
  xd.dedup.filter (fun a => decide (minc < countR xd a))

/-- `pyxa = pyxa / pyxa.sum()` row normalization, then the collected list
`pyx` of conditional distributions (one per qualifying bin). -/
noncomputable def cds_pyx (ffactor maxdev minc : ℕ) (xd y_te yd : List ℝ) :
    List (List ℝ) :=
  (cds_quals minc xd).map (fun a =>
    let pyxa := pyxaOf ffactor maxdev xd y_te yd a
    pyxa.map (fun v => v / pyxa.sum))

/-- `pyx.mean(axis=0)`: elementwise (column) means over the row list. -/
noncomputable def colMeans (rows : List (List ℝ)) : List ℝ :=
  (List.range (rows.headD []).length).map
    (fun j => npMean (rows.map (fun r => r.getD j 0)))

/-- `pyx - pyx.mean(axis=0)`: subtract the column means from each row. -/
noncomputable def centerCols (rows : List (List ℝ)) : List (List ℝ) :=
  rows.map (fun r =>
    (List.range r.length).map (fun j => r.getD j 0 - (colMeans rows).getD j 0))

/-- `np.std` of a 2-D array: the standard deviation over all entries of
the flattened array. -/
noncomputable def npStd2 (rows : List (List ℝ)) : ℝ := npStd rows.flatten

/-- The value `cds_score` returns when no assertion fires. -/
noncomputable def cds_val (ffactor maxdev minc : ℕ) (x_te y_te : List ℝ) : ℝ :=
  let xd := (discretized_sequences x_te y_te ffactor maxdev).1
  let yd := (discretized_sequences x_te y_te ffactor maxdev).2
  let pyx := cds_pyx ffactor maxdev minc xd y_te yd
  if pyx.length = 0 then 0 else npStd2 (centerCols pyx)

/-- The body of `cds_score` after the two discretizations, with the
in-loop `assert` modelled in the `Except` monad: each qualifying bin's raw
histogram is checked against the bin's sample count before normalization;
then the empty set returns `0` and otherwise the std of the
column-centered stack is returned. -/
noncomputable def cds_core (ffactor maxdev minc : ℕ) (xd y_te yd : List ℝ) :
    Except CdsErr ℝ := do
  let rows ← (cds_quals minc xd).mapM (fun a =>
    checkRow (pyxaOf ffactor maxdev xd y_te yd a) ((countR xd a : ℕ) : ℝ))
  let pyx := rows.map (fun pyxa => pyxa.map (fun v => v / pyxa.sum))
  if pyx.length = 0 then pure 0 else pure (npStd2 (centerCols pyx))

/-- `CDS.cds_score(x_te, y_te)`: discretize both sequences, then run the
estimation/alignment/aggregation body. -/
noncomputable def cds_score (ffactor maxdev minc : ℕ) (x_te y_te : List ℝ) :
    Except CdsErr ℝ :=
  cds_core ffactor maxdev minc (discretized_sequences x_te y_te ffactor maxdev).1
    y_te (discretized_sequences x_te y_te ffactor maxdev).2

/-- `CDS.predict_proba(a, b) = cds_score(b, a) - cds_score(a, b)`,
propagating any exception of either directional call. -/
noncomputable def predict_proba (ffactor maxdev minc : ℕ) (a b : List ℝ) :
    Except CdsErr ℝ := do
  let s1 ← cds_score ffactor maxdev minc b a
  let s2 ← cds_score ffactor maxdev minc a b
  pure (s1 - s2)

/-! ### Basic lemmas about the discretizer -/

lemma clipHigh_length (vmax : ℝ) (l : List ℝ) : (clipHigh vmax l).length = l.length := by
  simp [clipHigh]

lemma clipLow_length (vmin : ℝ) (l : List ℝ) : (clipLow vmin l).length = l.length := by
  simp [clipLow]

lemma discretized_sequence_length (x : List ℝ) (tx : String) (f m : ℕ) (norm : Bool) :
    (discretized_sequence x tx f m norm).length = x.length := by
  unfold discretized_sequence
  split
  · cases norm <;> simp [clipLow, clipHigh]
  · rfl

lemma numerical_NUMERICAL : numerical NUMERICAL = true := rfl

lemma len_discretized_values_numerical (x : List ℝ) (f m : ℕ) :
    len_discretized_values x NUMERICAL f m =
      if count_unique x > 2 * f * m + 1 then 2 * f * m + 1 else count_unique x := by
  unfold len_discretized_values discretized_values
  split
  · rename_i h
    rw [List.length_map, List.length_range, if_pos h.2]
  · rename_i h
    have hc : ¬ count_unique x > 2 * f * m + 1 := fun hc => h ⟨rfl, hc⟩
    simp only [sortedDedup, List.length_mergeSort, if_neg hc]
    rfl

lemma count_gt_len_iff (x : List ℝ) (f m : ℕ) :
    count_unique x > len_discretized_values x NUMERICAL f m ↔
      count_unique x > 2 * f * m + 1 := by
  rw [len_discretized_values_numerical]
  split <;> omega

lemma discretized_sequence_eq_self (y : List ℝ) (f m : ℕ)
    (h : ¬ count_unique y > len_discretized_values y NUMERICAL f m) :
    discretized_sequence y NUMERICAL f m true = y := by
  unfold discretized_sequence
  rw [if_neg]
  rintro (hfalse | ⟨_, hc⟩)
  · simp at hfalse
  · exact h hc

lemma npRound_eq_int (v : ℝ) : ∃ k : ℤ, npRound v = (k : ℝ) := by
  unfold npRound
  split
  · split
    · exact ⟨⌊v⌋, rfl⟩
    · exact ⟨⌊v⌋ + 1, by push_cast; ring⟩
  · exact ⟨round v, rfl⟩

lemma npTrunc_intCast (k : ℤ) : npTrunc ((k : ℝ)) = k := by
  unfold npTrunc
  split <;> simp

/-- Every element of a `norm=False` discretization is an integer in the
clipped range `[-ffactor*maxdev, ffactor*maxdev]`. -/
lemma discretized_sequence_false_mem (l : List ℝ) (f m : ℕ) (w : ℝ)
    (hw : w ∈ discretized_sequence l NUMERICAL f m false) :
    ∃ k : ℤ, w = (k : ℝ) ∧ -((f * m : ℕ) : ℤ) ≤ k ∧ k ≤ ((f * m : ℕ) : ℤ) := by
  have hbound : (0 : ℝ) ≤ ((f * m : ℕ) : ℝ) := Nat.cast_nonneg _
  unfold discretized_sequence at hw
  rw [if_pos (Or.inl rfl)] at hw
  simp only [Bool.false_eq_true, if_false, clipLow, clipHigh, List.mem_map] at hw
  obtain ⟨v1, hv1, rfl⟩ := hw
  obtain ⟨v0, hv0, rfl⟩ := hv1
  obtain ⟨a, ha, rfl⟩ := hv0
  obtain ⟨k, hk⟩ := npRound_eq_int (a * (f : ℝ))
  by_cases h1 : ((f * m : ℕ) : ℝ) < npRound (a * (f : ℝ))
  · simp only [if_pos h1]
    rw [if_neg (by linarith)]
    refine ⟨((f * m : ℕ) : ℤ), by push_cast; ring, by omega, le_refl _⟩
  · simp only [if_neg h1]
    by_cases h2 : npRound (a * (f : ℝ)) < -((f * m : ℕ) : ℝ)
    · rw [if_pos h2]
      refine ⟨-((f * m : ℕ) : ℤ), by push_cast; ring, le_refl _, by omega⟩
    · rw [if_neg h2]
      push_neg at h1 h2
      refine ⟨k, hk, ?_, ?_⟩
      · have hle : -((f * m : ℕ) : ℝ) ≤ (k : ℝ) := hk ▸ h2
        exact_mod_cast hle
      · have hle : (k : ℝ) ≤ ((f * m : ℕ) : ℝ) := hk ▸ h1
        exact_mod_cast hle

lemma mem_discretized_values_of_int (y : List ℝ) (f m : ℕ)
    (hy : count_unique y > 2 * f * m + 1) (k : ℤ)
    (hk1 : -((f * m : ℕ) : ℤ) ≤ k) (hk2 : k ≤ ((f * m : ℕ) : ℤ)) :
    (k : ℝ) ∈ discretized_values y NUMERICAL f m := by
  unfold discretized_values
  rw [if_pos ⟨rfl, hy⟩]
  have key : 2 * f * m + 1 = f * m + (f * m + 1) := by ring
  refine List.mem_map.2 ⟨(k + ((f * m : ℕ) : ℤ)).toNat, List.mem_range.2 (by omega), ?_⟩
  have h1 : (((k + ((f * m : ℕ) : ℤ)).toNat : ℤ) - ((f * m : ℕ) : ℤ)) = k := by omega
  exact_mod_cast congrArg (Int.cast : ℤ → ℝ) h1

lemma discretized_values_nodup_cont (y : List ℝ) (f m : ℕ)
    (hy : count_unique y > 2 * f * m + 1) :
    (discretized_values y NUMERICAL f m).Nodup := by
  unfold discretized_values
  rw [if_pos ⟨rfl, hy⟩]
  refine List.Nodup.map ?_ (List.nodup_range _)
  intro a b hab
  simp only at hab
  have h2 : ((a : ℤ) - ((f * m : ℕ) : ℤ)) = ((b : ℤ) - ((f * m : ℕ) : ℤ)) :=
    Int.cast_injective hab
  omega

/-! ### Counting lemmas: histograms over a complete nodup bin list
partition the sample -/

lemma sum_map_add_nat {β : Type} (L : List β) (f g : β → ℕ) :
    (L.map (fun i => f i + g i)).sum = (L.map f).sum + (L.map g).sum := by
  induction L with
  | nil => simp
  | cons i t ih => simp [ih]; omega

lemma sum_map_indicator_zero {α β : Type} (L : List β) (a : α) (p : β → α → Bool)
    (g : α → β) (hp : ∀ i v, p i v = true ↔ g v = i) (hnot : g a ∉ L) :
    (L.map (fun i => if p i a then 1 else 0)).sum = 0 := by
  induction L with
  | nil => simp
  | cons i t ih =>
    have h1 : ¬ p i a = true := fun hpa => hnot (by simp [← (hp i a).1 hpa])
    simp only [List.map_cons, List.sum_cons, if_neg h1, zero_add]
    exact ih (fun hmem => hnot (List.mem_cons_of_mem _ hmem))

lemma sum_map_indicator_one {α β : Type} (L : List β) (a : α) (p : β → α → Bool)
    (g : α → β) (hp : ∀ i v, p i v = true ↔ g v = i) (hL : L.Nodup) (hmem : g a ∈ L) :
    (L.map (fun i => if p i a then 1 else 0)).sum = 1 := by
  induction L with
  | nil => simp at hmem
  | cons i t ih =>
    rcases List.mem_cons.1 hmem with heq | hmem'
    · have h1 : p i a = true := (hp i a).2 heq
      have hnot : g a ∉ t := fun hm => (List.nodup_cons.1 hL).1 (heq ▸ hm)
      simp only [List.map_cons, List.sum_cons, if_pos h1,
        sum_map_indicator_zero t a p g hp hnot]
    · have hnotia : g a ≠ i := fun hgi => ((List.nodup_cons.1 hL).1 (hgi ▸ hmem')).elim
      have h1 : ¬ p i a = true := fun hpa => hnotia ((hp i a).1 hpa)
      simp only [List.map_cons, List.sum_cons, if_neg h1]
      rw [ih (List.nodup_cons.1 hL).2 hmem']

/-- A frequency histogram over a complete, duplicate-free bin list sums to
the sample size. -/
lemma sum_map_countP_eq_length {α β : Type} (l : List α) (L : List β) (g : α → β)
    (p : β → α → Bool) (hp : ∀ i v, p i v = true ↔ g v = i)
    (hL : L.Nodup) (hmem : ∀ v ∈ l, g v ∈ L) :
    (L.map (fun i => l.countP (p i))).sum = l.length := by
  induction l with
  | nil => simp
  | cons a t ih =>
    have ht := ih (fun v hv => hmem v (List.mem_cons_of_mem _ hv))
    have ha : g a ∈ L := hmem a (List.mem_cons_self a t)
    calc (L.map (fun i => List.countP (p i) (a :: t))).sum
        = (L.map (fun i => t.countP (p i) + if p i a then 1 else 0)).sum := by
          simp only [List.countP_cons]
      _ = (L.map (fun i => t.countP (p i))).sum
            + (L.map (fun i => if p i a then 1 else 0)).sum :=
          sum_map_add_nat L _ _
      _ = t.length + 1 := by rw [ht, sum_map_indicator_one L a p g hp hL ha]
      _ = (a :: t).length := by simp

lemma countP_zip_fst {α β : Type} (p : α → Bool) :
    ∀ (l1 : List α) (l2 : List β), l1.length = l2.length →
      (l1.zip l2).countP (fun q => p q.1) = l1.countP p
  | [], [], _ => by simp
  | [], _ :: _, h => by simp at h
  | _ :: _, [], h => by simp at h
  | a :: t1, b :: t2, h => by
    simp only [List.zip_cons_cons, List.countP_cons]
    rw [countP_zip_fst p t1 t2 (by simpa using h)]

lemma condSubset_length (xd y : List ℝ) (a : ℝ) (h : xd.length = y.length) :
    (condSubset xd y a).length = countR xd a := by
  unfold condSubset countR
  rw [List.length_map, ← List.countP_eq_length_filter]
  exact countP_zip_fst (fun v => decide (v = a)) xd y h

lemma condSubset_subset (xd y : List ℝ) (a : ℝ) (v : ℝ)
    (hv : v ∈ condSubset xd y a) : v ∈ y := by
  unfold condSubset at hv
  obtain ⟨⟨u, w⟩, hmem, rfl⟩ := List.mem_map.1 hv
  exact (List.of_mem_zip (List.mem_of_mem_filter hmem)).2

lemma sortedDedup_nodup (l : List ℝ) : (sortedDedup l).Nodup :=
  ((List.mergeSort_perm l.dedup _).nodup_iff).2 l.nodup_dedup

lemma mem_sortedDedup (l : List ℝ) (v : ℝ) : v ∈ sortedDedup l ↔ v ∈ l := by
  unfold sortedDedup
  rw [List.mem_mergeSort, List.mem_dedup]

lemma align_hist_sum (py pyxa : List ℝ) (ny : ℕ) :
    (align_hist py pyxa ny).sum = pyxa.sum := by
  unfold align_hist repad
  simp [List.sum_append, List.sum_replicate]

lemma sum_map_natCast {β : Type} (L : List β) (c : β → ℕ) :
    (L.map (fun i => ((c i : ℕ) : ℝ))).sum = (((L.map c).sum : ℕ) : ℝ) := by
  induction L with
  | nil => simp
  | cons i t ih => simp [ih]

lemma cond_discretized_length (f m : ℕ) (xd y : List ℝ) (a : ℝ) :
    (cond_discretized f m xd y a).length = (condSubset xd y a).length := by
  unfold cond_discretized
  rw [discretized_sequence_length, List.length_map]

/-- The raw conditional histogram built for any qualifying cause-bin sums
to that bin's sample count — the invariant the source `assert` checks. -/
lemma pyxaOf_sum (f m : ℕ) (xd y yd : List ℝ)
    (hyd : yd = discretized_sequence y NUMERICAL f m true)
    (a : ℝ) (hlen : xd.length = y.length) :
    (pyxaOf f m xd y yd a).sum = ((countR xd a : ℕ) : ℝ) := by
  unfold pyxaOf
  dsimp only
  split
  · rename_i hy
    have hy' : count_unique y > 2 * f * m + 1 := (count_gt_len_iff y f m).1 hy
    rw [sum_map_natCast]
    have hpart := sum_map_countP_eq_length (cond_discretized f m xd y a)
      (discretized_values y NUMERICAL f m)
      (fun v => ((npTrunc v : ℤ) : ℝ))
      (fun i v => decide ((npTrunc v : ℝ) = i))
      (fun i v => by simp)
      (discretized_values_nodup_cont y f m hy')
      (fun v hv => by
        obtain ⟨k, rfl, hk1, hk2⟩ := discretized_sequence_false_mem _ f m v hv
        simp only [npTrunc_intCast]
        exact mem_discretized_values_of_int y f m hy' k hk1 hk2)
    have hpart2 : ((discretized_values y NUMERICAL f m).map
        (fun i => (cond_discretized f m xd y a).countP
          (fun v => decide ((npTrunc v : ℝ) = i)))).sum
        = (cond_discretized f m xd y a).length := by simpa using hpart
    rw [hpart2, cond_discretized_length, condSubset_length _ _ _ hlen]
  · rename_i hy
    rw [align_hist_sum, sum_map_natCast]
    have hydy : yd = y := hyd.trans (discretized_sequence_eq_self y f m hy)
    have hpart := sum_map_countP_eq_length (condSubset xd y a) (sortedDedup yd)
      (fun v => v) (fun i v => decide (v = i)) (fun i v => by simp)
      (sortedDedup_nodup yd)
      (fun v hv => (mem_sortedDedup yd v).2 (hydy ▸ condSubset_subset xd y a v hv))
    have hpart2 : ((sortedDedup yd).map (countR (condSubset xd y a))).sum
        = (condSubset xd y a).length := by simpa [countR] using hpart
    rw [hpart2, condSubset_length _ _ _ hlen]

/-- When every row passes its count check, the checked loop succeeds and
returns exactly the unchecked rows. -/
lemma mapM_checkRow_ok (L : List ℝ) (row : ℝ → List ℝ) (cnt : ℝ → ℝ)
    (h : ∀ a ∈ L, (row a).sum = cnt a) :
    L.mapM (fun a => checkRow (row a) (cnt a)) = Except.ok (L.map row) := by
  induction L with
  | nil => rfl
  | cons a t ih =>
    rw [List.mapM_cons]
    have ha := h a (List.mem_cons_self a t)
    have ht := ih (fun v hv => h v (List.mem_cons_of_mem _ hv))
    rw [ht]
    simp [checkRow, if_pos ha]
    rfl

/-- `cds_score` never raises: the count-preservation assertion always
holds, so the computation reaches its return statement with `cds_val`. -/
lemma cds_score_ok (f m c : ℕ) (x y : List ℝ) (hlen : x.length = y.length) :
    cds_score f m c x y = Except.ok (cds_val f m c x y) := by
  unfold cds_score cds_core cds_val
  dsimp only
  rw [mapM_checkRow_ok]
  · simp only [bind, Except.bind, cds_pyx, List.map_map, Function.comp_def]
    split <;> rfl
  · intro a ha
    refine pyxaOf_sum f m _ y _ rfl a ?_
    have h1 : (discretized_sequences x y f m).1
        = discretized_sequence x NUMERICAL f m true := rfl
    rw [h1, discretized_sequence_length, hlen]

lemma cds_val_nonneg (f m c : ℕ) (x y : List ℝ) : 0 ≤ cds_val f m c x y := by
  unfold cds_val
  dsimp only
  split
  · exact le_refl 0
  · exact Real.sqrt_nonneg _

/-! ### Lemmas about the cross-correlation alignment -/

lemma pyxax_pad_length (pyxa : List ℝ) (ny : ℕ) (h : pyxa.length = ny) (h1 : 1 ≤ ny) :
    (pyxax_pad pyxa ny).length = 3 * ny - 2 := by
  simp [pyxax_pad, h]
  omega

lemma xcorr_list_length (py pyxa : List ℝ) (ny : ℕ) :
    (xcorr_list py pyxa ny).length = 2 * ny - 1 := by
  simp [xcorr_list]

lemma repad_length (pyxa : List ℝ) (ny i : ℕ) (h : pyxa.length = ny)
    (hi : i ≤ 2 * ny - 2) (h1 : 1 ≤ ny) :
    (repad pyxa ny i).length = 3 * ny - 2 := by
  simp [repad, h]
  omega

lemma foldl_max_mem (t : List ℝ) : ∀ a : ℝ, t.foldl max a = a ∨ t.foldl max a ∈ t := by
  induction t with
  | nil => intro a; exact Or.inl rfl
  | cons b t ih =>
    intro a
    simp only [List.foldl_cons]
    rcases ih (max a b) with h | h
    · rcases max_choice a b with hab | hab
      · exact Or.inl (h.trans hab)
      · exact Or.inr (List.mem_cons.2 (Or.inl (h.trans hab)))
    · exact Or.inr (List.mem_cons_of_mem b h)

lemma le_foldl_max (t : List ℝ) :
    ∀ a : ℝ, a ≤ t.foldl max a ∧ ∀ v ∈ t, v ≤ t.foldl max a := by
  induction t with
  | nil => intro a; exact ⟨le_refl a, by simp⟩
  | cons b t ih =>
    intro a
    obtain ⟨h1, h2⟩ := ih (max a b)
    simp only [List.foldl_cons]
    refine ⟨le_trans (le_max_left a b) h1, ?_⟩
    intro v hv
    rcases List.mem_cons.1 hv with rfl | hv'
    · exact le_trans (le_max_right a v) h1
    · exact h2 v hv'

lemma maxR_mem (l : List ℝ) (h : l ≠ []) : maxR l ∈ l := by
  cases l with
  | nil => exact (h rfl).elim
  | cons a t =>
    show t.foldl max a ∈ a :: t
    rcases foldl_max_mem t a with h1 | h1
    · rw [h1]; exact List.mem_cons_self a t
    · exact List.mem_cons_of_mem a h1

lemma le_maxR (l : List ℝ) (v : ℝ) (hv : v ∈ l) : v ≤ maxR l := by
  cases l with
  | nil => simp at hv
  | cons a t =>
    show v ≤ t.foldl max a
    rcases List.mem_cons.1 hv with rfl | hv'
    · exact (le_foldl_max t v).1
    · exact (le_foldl_max t a).2 v hv'

/-- `list.index(v)` returns the first position holding `v`: the entry
there is `v` and no earlier entry is `v`. -/
lemma indexOf_spec (l : List ℝ) (a : ℝ) (h : a ∈ l) :
    l.getD (l.indexOf a) 0 = a ∧ ∀ j < l.indexOf a, l.getD j 0 ≠ a := by
  induction l with
  | nil => simp at h
  | cons b t ih =>
    by_cases hba : b = a
    · subst hba
      refine ⟨by simp [List.indexOf_cons_self], ?_⟩
      simp [List.indexOf_cons_self]
    · have hbeq : (b == a) = false := beq_false_of_ne hba
      have hmem : a ∈ t := by
        rcases List.mem_cons.1 h with heq | hmem'
        · exact (hba heq.symm).elim
        · exact hmem'
      obtain ⟨ih1, ih2⟩ := ih hmem
      have hidx : List.indexOf a (b :: t) = List.indexOf a t + 1 := by
        simp [List.indexOf_cons, hbeq]
      refine ⟨?_, ?_⟩
      · rw [hidx, List.getD_cons_succ, ih1]
      · intro j hj
        rw [hidx] at hj
        cases j with
        | zero => simpa using hba
        | succ j' =>
          rw [List.getD_cons_succ]
          exact ih2 j' (by omega)

lemma xcorr_list_getD (py pyxa : List ℝ) (ny i : ℕ) (hi : i < 2 * ny - 1) :
    (xcorr_list py pyxa ny).getD i 0 =
      dotR py (((pyxax_pad pyxa ny).drop i).take ny) := by
  unfold xcorr_list
  rw [List.getD_eq_getElem?_getD, List.getElem?_map, List.getElem?_range hi]
  rfl

lemma window_length (pyxa : List ℝ) (ny i : ℕ) (h : pyxa.length = ny)
    (hi : i < 2 * ny - 1) (h1 : 1 ≤ ny) :
    (((pyxax_pad pyxa ny).drop i).take ny).length = ny := by
  simp [pyxax_pad, h]
  omega

lemma window_getD (pyxa : List ℝ) (ny i j : ℕ) (hj : j < ny) :
    (((pyxax_pad pyxa ny).drop i).take ny).getD j 0
      = (pyxax_pad pyxa ny).getD (i + j) 0 := by
  rw [List.getD_eq_getElem?_getD, List.getD_eq_getElem?_getD,
    List.getElem?_take, if_pos hj, List.getElem?_drop]

lemma dotR_eq_sum (a b : List ℝ) (n : ℕ) (ha : a.length = n) (hb : b.length = n) :
    dotR a b = ∑ j ∈ Finset.range n, a.getD j 0 * b.getD j 0 := by
  induction n generalizing a b with
  | zero =>
    rw [List.length_eq_zero] at ha hb
    subst ha; subst hb
    simp [dotR]
  | succ n ih =>
    cases a with
    | nil => simp at ha
    | cons x a2 =>
      cases b with
      | nil => simp at hb
      | cons y b2 =>
        simp only [List.length_cons, Nat.succ.injEq] at ha hb
        rw [Finset.sum_range_succ']
        simp only [List.getD_cons_succ, List.getD_cons_zero]
        rw [← ih a2 b2 ha hb]
        simp only [dotR, List.zip_cons_cons, List.map_cons, List.sum_cons]
        ring

lemma clip_mem_bounds (fm : ℕ) (l2 : List ℝ) (v : ℝ)
    (hv : v ∈ clipLow (-((fm : ℕ) : ℝ)) (clipHigh ((fm : ℕ) : ℝ) l2)) :
    -((fm : ℕ) : ℝ) ≤ v ∧ v ≤ ((fm : ℕ) : ℝ) := by
  have hb : (0 : ℝ) ≤ ((fm : ℕ) : ℝ) := Nat.cast_nonneg _
  unfold clipLow clipHigh at hv
  rw [List.map_map] at hv
  obtain ⟨w, hw, rfl⟩ := List.mem_map.1 hv
  simp only [Function.comp_def]
  by_cases h1 : ((fm : ℕ) : ℝ) < w
  · rw [if_pos h1, if_neg (by linarith)]
    exact ⟨by linarith, le_refl _⟩
  · rw [if_neg h1]
    by_cases h2 : w < -((fm : ℕ) : ℝ)
    · rw [if_pos h2]
      exact ⟨le_refl _, by linarith⟩
    · rw [if_neg h2]
      push_neg at h1 h2
      exact ⟨h2, h1⟩

end CDSModel

namespace CDSModel

/-! ### Claim theorems -/

/-- C1: `predict_proba(a, b)` computes `cds_score(b, a) - cds_score(a, b)`
and is exactly antisymmetric: `predict_proba(a, b) = -predict_proba(b, a)`
(the same computation with operands swapped). -/
theorem C1_predict_proba_antisymmetric (f m c : ℕ) (a b : List ℝ)
    (hlen : a.length = b.length) :
    predict_proba f m c a b
        = Except.ok (cds_val f m c b a - cds_val f m c a b)
      ∧ predict_proba f m c a b
        = (predict_proba f m c b a).map (fun r => -r) := by
  have h1 := cds_score_ok f m c b a hlen.symm
  have h2 := cds_score_ok f m c a b hlen
  constructor
  · unfold predict_proba
    rw [h1, h2]
    rfl
  · unfold predict_proba
    rw [h1, h2]
    simp only [bind, Except.bind, pure, Except.pure, Except.map]
    congr 1
    ring

/-- C1 witness: a concrete equal-length pair. -/
theorem C1_witness :
    ([(0 : ℝ), 1].length = [(2 : ℝ), 3].length)
      ∧ predict_proba 2 3 12 [(0 : ℝ), 1] [(2 : ℝ), 3]
          = Except.ok (cds_val 2 3 12 [(2 : ℝ), 3] [(0 : ℝ), 1]
              - cds_val 2 3 12 [(0 : ℝ), 1] [(2 : ℝ), 3]) :=
  ⟨rfl, (C1_predict_proba_antisymmetric 2 3 12 [(0 : ℝ), 1] [(2 : ℝ), 3] rfl).1⟩

/-- C3: for every qualifying cause-bin the aligned (or continuous-path
discretized) conditional histogram sums to that bin's sample count; a
violated check raises the assertion error (never silently renormalizes);
and consequently `cds_score` always reaches its normal return. -/
theorem C3_count_preservation (f m c : ℕ) (x y : List ℝ)
    (hlen : x.length = y.length) :
    (∀ a ∈ cds_quals c (discretized_sequences x y f m).1,
        (pyxaOf f m (discretized_sequences x y f m).1 y
            (discretized_sequences x y f m).2 a).sum
          = ((countR (discretized_sequences x y f m).1 a : ℕ) : ℝ))
      ∧ (∀ row cnt, row.sum ≠ cnt →
          checkRow row cnt = Except.error CdsErr.assertionError)
      ∧ cds_score f m c x y = Except.ok (cds_val f m c x y) := by
  refine ⟨?_, ?_, cds_score_ok f m c x y hlen⟩
  · intro a _
    refine pyxaOf_sum f m _ y _ rfl a ?_
    have h1 : (discretized_sequences x y f m).1
        = discretized_sequence x NUMERICAL f m true := rfl
    rw [h1, discretized_sequence_length, hlen]
  · intro row cnt hne
    unfold checkRow
    rw [if_neg hne]

/-- C3 witness: a concrete equal-length pair. -/
theorem C3_witness :
    ([(0 : ℝ), 1].length = [(2 : ℝ), 3].length)
      ∧ cds_score 2 3 12 [(0 : ℝ), 1] [(2 : ℝ), 3]
          = Except.ok (cds_val 2 3 12 [(0 : ℝ), 1] [(2 : ℝ), 3]) :=
  ⟨rfl, (C3_count_preservation 2 3 12 [(0 : ℝ), 1] [(2 : ℝ), 3] rfl).2.2⟩

/-- C4: when `minc ≥ N` no cause-bin has count strictly above `minc`, the
conditional-distribution set is empty, and `cds_score` returns `0`
normally (no error). -/
theorem C4_empty_returns_zero (f m minc : ℕ) (x y : List ℝ)
    (hminc : x.length ≤ minc) :
    cds_quals minc (discretized_sequences x y f m).1 = []
      ∧ cds_score f m minc x y = Except.ok 0 := by
  have hquals : cds_quals minc (discretized_sequences x y f m).1 = [] := by
    unfold cds_quals
    rw [List.filter_eq_nil_iff]
    intro a _
    have hle : List.countP (fun v => decide (v = a))
        (discretized_sequences x y f m).1 ≤ (discretized_sequences x y f m).1.length :=
      List.countP_le_length _
    have hxd : (discretized_sequences x y f m).1.length = x.length := by
      have h1 : (discretized_sequences x y f m).1
          = discretized_sequence x NUMERICAL f m true := rfl
      rw [h1, discretized_sequence_length]
    simp only [decide_eq_true_eq, countR]
    omega
  refine ⟨hquals, ?_⟩
  unfold cds_score cds_core
  rw [hquals]
  rfl

/-- C4 witness: `N = 2 ≤ minc = 12`. -/
theorem C4_witness :
    ([(0 : ℝ), 1].length ≤ 12)
      ∧ cds_score 2 3 12 [(0 : ℝ), 1] [(2 : ℝ), 3] = Except.ok 0 :=
  ⟨by decide, (C4_empty_returns_zero 2 3 12 [(0 : ℝ), 1] [(2 : ℝ), 3] (by decide)).2⟩

/-- C7: the one-directional statistic is always nonnegative: `cds_score`
returns (without error) a value `≥ 0`. -/
theorem C7_cds_score_nonneg (f m c : ℕ) (x y : List ℝ)
    (hlen : x.length = y.length) :
    cds_score f m c x y = Except.ok (cds_val f m c x y)
      ∧ 0 ≤ cds_val f m c x y :=
  ⟨cds_score_ok f m c x y hlen, cds_val_nonneg f m c x y⟩

/-- C7 witness: a concrete equal-length pair. -/
theorem C7_witness :
    ([(0 : ℝ), 1].length = [(2 : ℝ), 3].length)
      ∧ 0 ≤ cds_val 2 3 12 [(0 : ℝ), 1] [(2 : ℝ), 3] :=
  ⟨rfl, (C7_cds_score_nonneg 2 3 12 [(0 : ℝ), 1] [(2 : ℝ), 3] rfl).2⟩

/-- C5: when the unique-value count exceeds `2*ffactor*maxdev + 1`, every
element of the discretized output lies in
`[-ffactor*maxdev, ffactor*maxdev]`. -/
theorem C5_range_invariant (x : List ℝ) (f m : ℕ)
    (h : count_unique x > 2 * f * m + 1) :
    ∀ v ∈ discretized_sequence x NUMERICAL f m true,
      -((f * m : ℕ) : ℝ) ≤ v ∧ v ≤ ((f * m : ℕ) : ℝ) := by
  intro v hv
  unfold discretized_sequence at hv
  rw [if_pos (Or.inr ⟨rfl, (count_gt_len_iff x f m).2 h⟩)] at hv
  exact clip_mem_bounds (f * m) _ v hv

/-- C9: under the continuous-path precondition (effect sequence with more
unique values than the bin range, nonzero standard deviation), every value
of the discretized conditional subset lies in the counted bin range, the
count check of each qualifying bin passes, and the assertion never
raises. -/
theorem C9_continuous_assert_unreachable (f m c : ℕ) (x y : List ℝ)
    (hlen : x.length = y.length)
    (hy : count_unique y > 2 * f * m + 1)
    (_hstd : npStd y ≠ 0) :
    count_unique y > len_discretized_values y NUMERICAL f m
      ∧ (∀ a ∈ cds_quals c (discretized_sequences x y f m).1,
          (∀ w ∈ cond_discretized f m (discretized_sequences x y f m).1 y a,
              -((f * m : ℕ) : ℝ) ≤ w ∧ w ≤ ((f * m : ℕ) : ℝ))
          ∧ checkRow
              (pyxaOf f m (discretized_sequences x y f m).1 y
                (discretized_sequences x y f m).2 a)
              ((countR (discretized_sequences x y f m).1 a : ℕ) : ℝ)
            = Except.ok (pyxaOf f m (discretized_sequences x y f m).1 y
                (discretized_sequences x y f m).2 a))
      ∧ cds_score f m c x y = Except.ok (cds_val f m c x y) := by
  have hxdlen : (discretized_sequences x y f m).1.length = y.length := by
    have h1 : (discretized_sequences x y f m).1
        = discretized_sequence x NUMERICAL f m true := rfl
    rw [h1, discretized_sequence_length, hlen]
  refine ⟨(count_gt_len_iff y f m).2 hy, ?_, cds_score_ok f m c x y hlen⟩
  intro a _
  constructor
  · intro w hw
    unfold cond_discretized at hw
    obtain ⟨k, rfl, hk1, hk2⟩ := discretized_sequence_false_mem _ f m w hw
    constructor
    · exact_mod_cast hk1
    · exact_mod_cast hk2
  · have hsum := pyxaOf_sum f m (discretized_sequences x y f m).1 y
      (discretized_sequences x y f m).2 rfl a hxdlen
    unfold checkRow
    rw [if_pos hsum]

/-- C5 witness: `ffactor = maxdev = 1` and four distinct values. -/
theorem C5_witness :
    (count_unique [(0 : ℝ), 1, 2, 3] > 2 * 1 * 1 + 1)
      ∧ (∀ v ∈ discretized_sequence [(0 : ℝ), 1, 2, 3] NUMERICAL 1 1 true,
          -((1 * 1 : ℕ) : ℝ) ≤ v ∧ v ≤ ((1 * 1 : ℕ) : ℝ)) := by
  have hcu : count_unique [(0 : ℝ), 1, 2, 3] > 2 * 1 * 1 + 1 := by
    unfold count_unique
    norm_num [List.dedup_cons_of_not_mem]
  exact ⟨hcu, C5_range_invariant [(0 : ℝ), 1, 2, 3] 1 1 hcu⟩

/-- C9 witness: a constant cause and a four-valued effect that takes the
continuous conditional path. -/
theorem C9_witness :
    (([(0 : ℝ), 0, 0, 0].length = [(1 : ℝ), 2, 3, 4].length)
      ∧ count_unique [(1 : ℝ), 2, 3, 4] > 2 * 1 * 1 + 1
      ∧ npStd [(1 : ℝ), 2, 3, 4] ≠ 0)
      ∧ cds_score 1 1 12 [(0 : ℝ), 0, 0, 0] [(1 : ℝ), 2, 3, 4]
          = Except.ok (cds_val 1 1 12 [(0 : ℝ), 0, 0, 0] [(1 : ℝ), 2, 3, 4]) := by
  have hcu : count_unique [(1 : ℝ), 2, 3, 4] > 2 * 1 * 1 + 1 := by
    unfold count_unique
    norm_num [List.dedup_cons_of_not_mem]
  have hstd : npStd [(1 : ℝ), 2, 3, 4] ≠ 0 := by
    unfold npStd
    rw [Real.sqrt_ne_zero']
    unfold npVarP npMean
    norm_num
  exact ⟨⟨rfl, hcu, hstd⟩,
    (C9_continuous_assert_unreachable 1 1 12 [(0 : ℝ), 0, 0, 0] [(1 : ℝ), 2, 3, 4]
      rfl hcu hstd).2.2⟩

/-- C2 (as amended): for a histogram of length `ny ≥ 1` and marginal of
length `ny`, the zero-padded embedding has length `3*ny - 2` (not
`2*ny - 1`); correlation scores are computed at each of the `2*ny - 1`
offsets as sums of elementwise products of the marginal with a window of
the padded array; the selected offset is the first (lowest-index)
maximum; and the re-padded aligned histogram has length `3*ny - 2` (not
`ny`), preserving the histogram's total. -/
theorem C2_alignment_amended (py pyxa : List ℝ) (ny : ℕ)
    (hpy : py.length = ny) (hpx : pyxa.length = ny) (hny : 1 ≤ ny) :
    (pyxax_pad pyxa ny).length = 3 * ny - 2
      ∧ (xcorr_list py pyxa ny).length = 2 * ny - 1
      ∧ (∀ i < 2 * ny - 1,
          (xcorr_list py pyxa ny).getD i 0
            = ∑ j ∈ Finset.range ny,
                py.getD j 0 * (pyxax_pad pyxa ny).getD (i + j) 0)
      ∧ imax_of (xcorr_list py pyxa ny) ≤ 2 * ny - 2
      ∧ (xcorr_list py pyxa ny).getD (imax_of (xcorr_list py pyxa ny)) 0
          = maxR (xcorr_list py pyxa ny)
      ∧ (∀ j < imax_of (xcorr_list py pyxa ny),
          (xcorr_list py pyxa ny).getD j 0 ≠ maxR (xcorr_list py pyxa ny))
      ∧ (align_hist py pyxa ny).length = 3 * ny - 2
      ∧ (align_hist py pyxa ny).sum = pyxa.sum := by
  have hxlen := xcorr_list_length py pyxa ny
  have hxne : xcorr_list py pyxa ny ≠ [] := by
    rw [← List.length_pos, hxlen]
    omega
  have hmem := maxR_mem _ hxne
  have hidx : imax_of (xcorr_list py pyxa ny) < 2 * ny - 1 := by
    unfold imax_of
    rw [← hxlen]
    exact List.indexOf_lt_length.2 hmem
  obtain ⟨hspec1, hspec2⟩ := indexOf_spec _ _ hmem
  refine ⟨pyxax_pad_length pyxa ny hpx hny, hxlen, ?_, by omega, hspec1, hspec2,
    repad_length pyxa ny _ hpx (by omega) hny, align_hist_sum py pyxa ny⟩
  intro i hi
  rw [xcorr_list_getD py pyxa ny i hi,
    dotR_eq_sum py _ ny hpy (window_length pyxa ny i hpx hi hny)]
  refine Finset.sum_congr rfl ?_
  intro j hj
  rw [window_getD pyxa ny i j (Finset.mem_range.1 hj)]

/-- C2 counterexample: with `ny = 2` bins the zero-padded array has
length `4`, not `2*ny - 1 = 3`, and the final aligned histogram has
length `4`, not `ny = 2`. -/
theorem C2_counterexample :
    (pyxax_pad [(1 : ℝ), 1] 2).length = 4
      ∧ (pyxax_pad [(1 : ℝ), 1] 2).length ≠ 2 * 2 - 1
      ∧ (align_hist [(1 : ℝ) / 2, 1 / 2] [(1 : ℝ), 1] 2).length = 4
      ∧ (align_hist [(1 : ℝ) / 2, 1 / 2] [(1 : ℝ), 1] 2).length ≠ 2 := by
  have h1 : (pyxax_pad [(1 : ℝ), 1] 2).length = 4 := by
    simp [pyxax_pad]
  have hxlen := xcorr_list_length [(1 : ℝ) / 2, 1 / 2] [(1 : ℝ), 1] 2
  have hxne : xcorr_list [(1 : ℝ) / 2, 1 / 2] [(1 : ℝ), 1] 2 ≠ [] := by
    rw [← List.length_pos, hxlen]
    omega
  have hidx : imax_of (xcorr_list [(1 : ℝ) / 2, 1 / 2] [(1 : ℝ), 1] 2) < 2 * 2 - 1 := by
    unfold imax_of
    rw [← hxlen]
    exact List.indexOf_lt_length.2 (maxR_mem _ hxne)
  have h2 : (align_hist [(1 : ℝ) / 2, 1 / 2] [(1 : ℝ), 1] 2).length = 3 * 2 - 2 :=
    repad_length _ _ _ (by simp) (by omega) (by omega)
  refine ⟨h1, by omega, by rw [h2], by rw [h2]; omega⟩

/-- C2 witness for the amended theorem: a concrete marginal and histogram
with `ny = 2`. -/
theorem C2_witness :
    ([(1 : ℝ) / 2, 1 / 2].length = 2 ∧ [(1 : ℝ), 1].length = 2 ∧ 1 ≤ 2)
      ∧ (pyxax_pad [(1 : ℝ), 1] 2).length = 3 * 2 - 2
      ∧ (xcorr_list [(1 : ℝ) / 2, 1 / 2] [(1 : ℝ), 1] 2).length = 2 * 2 - 1 := by
  have h := C2_alignment_amended [(1 : ℝ) / 2, 1 / 2] [(1 : ℝ), 1] 2 rfl rfl
    (by omega)
  exact ⟨⟨rfl, rfl, by omega⟩, h.1, h.2.1⟩

/-! ### A small model of Python values for the `count_unique` error path -/

/-- A Python value handed to `count_unique`: a hashable number or an
unhashable list. -/
inductive PyVal where
  | num (q : ℚ)
  | pylist (elems : List ℚ)
deriving DecidableEq

/-- Whether CPython can hash the value (required to put it into a
`set`). -/
def pyHashable : PyVal → Bool
  | .num _ => true
  | .pylist _ => false

/-- A raised Python exception. -/
inductive PyErr where
  | typeError (msg : String)
deriving DecidableEq

/-- Python `set(x)`: the distinct elements, or
`TypeError("unhashable type: ...")` when some element is unhashable. -/
def pySet (x : List PyVal) : Except PyErr (List PyVal) :=
  if x.all pyHashable then Except.ok x.dedup
  else Except.error (PyErr.typeError "unhashable type: list")

/-- `count_unique(x) = len(set(x))`; on `TypeError` the source prints the
offending input (console I/O, not modelled) and re-raises the very same
exception. -/
def count_unique_py (x : List PyVal) : Except PyErr ℕ :=
  (pySet x).map List.length

/-- C8 counterexample: on an input holding an unhashable element the
computation raises Python's own `TypeError` ("unhashable type"), not an
"unsupported value" error. -/
theorem C8_counterexample :
    count_unique_py [PyVal.pylist []]
        = Except.error (PyErr.typeError "unhashable type: list")
      ∧ "unhashable type: list" ≠ "unsupported value" := by
  constructor
  · rfl
  · decide

/-- C8 (as amended): on any input with an unhashable element,
`count_unique` fails fast by re-raising the underlying `TypeError`
(after printing the input) and never silently coerces the element into a
count. -/
theorem C8_unhashable_fails_fast (x : List PyVal)
    (h : ∃ v ∈ x, pyHashable v = false) :
    count_unique_py x = Except.error (PyErr.typeError "unhashable type: list")
      ∧ ∀ n, count_unique_py x ≠ Except.ok n := by
  have hall : ¬ x.all pyHashable = true := by
    rw [List.all_eq_true]
    intro hforall
    obtain ⟨v, hv, hfalse⟩ := h
    rw [hforall v hv] at hfalse
    cases hfalse
  have herr : count_unique_py x
      = Except.error (PyErr.typeError "unhashable type: list") := by
    unfold count_unique_py pySet
    rw [if_neg hall]
    rfl
  exact ⟨herr, fun n hok => by rw [herr] at hok; cases hok⟩

/-- C8 witness: a list holding one number and one (unhashable) list. -/
theorem C8_witness :
    (∃ v ∈ [PyVal.num 1, PyVal.pylist [2]], pyHashable v = false)
      ∧ count_unique_py [PyVal.num 1, PyVal.pylist [2]]
          = Except.error (PyErr.typeError "unhashable type: list") :=
  ⟨by decide,
    (C8_unhashable_fails_fast [PyVal.num 1, PyVal.pylist [2]] (by decide)).1⟩

/-! ### Store-passing model for the mutation/frame claim

Numpy arrays live in a heap; every arithmetic operation (`x - mean`,
`x / std`, `np.round`, boolean-mask selection) allocates a fresh array,
while the masked assignments `x[x > vmax] = vmax` and `x[x < vmin] = vmin`
write in place into whatever array the local name is bound to at that
point.  All in-place writes of the whole source file occur inside
`discretized_sequence`; the remaining operations of `cds_score` only read
or allocate, so they are modelled as a pure function of the values
read. -/

/-- The numpy heap: allocated 1-D arrays addressed by index. -/
abbrev Store : Type := List (List ℝ)

/-- Read the array behind a reference. -/
def readA (s : Store) (r : ℕ) : List ℝ := s.getD r []

/-- Number of allocated cells. -/
def sizeA (s : Store) : ℕ := s.length

/-- Allocate a fresh array, returning the new store and its reference. -/
def allocA (s : Store) (v : List ℝ) : Store × ℕ := (s ++ [v], sizeA s)

/-- Overwrite the array behind a reference (in-place assignment). -/
def writeA (s : Store) (r : ℕ) (v : List ℝ) : Store := s.set r v

/-- `discretized_sequence` at the store level: the two standardization
lines and the selection `xf` allocate, `np.round(x * ffactor)` allocates,
the two clip lines mutate the rounded array in place, and the identity
branch returns the input reference itself unchanged. -/
noncomputable def discretized_sequence_st (s : Store) (rx : ℕ) (tx : String)
    (f m : ℕ) (norm : Bool) : Store × ℕ :=
  let x0 := readA s rx
  if norm = false ∨ (numerical tx = true ∧
      count_unique x0 > len_discretized_values x0 tx f m) then
    let p1 := if norm then
        let xa := x0.map (fun v => (v - npMean x0) / npStd x0)
        let s1 := (allocA s xa).1
        let xf := xa.filter (fun v => decide (|v| < (m : ℝ)))
        let s2 := (allocA s1 xf).1
        let xb := xa.map (fun v => (v - npMean xf) / npStd xf)
        allocA s2 xb
      else (s, rx)
    let p2 := allocA p1.1 ((readA p1.1 p1.2).map (fun v => npRound (v * (f : ℝ))))
    let s3 := writeA p2.1 p2.2 (clipHigh ((f * m : ℕ) : ℝ) (readA p2.1 p2.2))
    let s4 := writeA s3 p2.2 (clipLow (-((f * m : ℕ) : ℝ)) (readA s3 p2.2))
    (s4, p2.2)
  else (s, rx)

lemma readA_append_old (s : Store) (t : List (List ℝ)) (r : ℕ)
    (h : r < sizeA s) : readA (s ++ t) r = readA s r := by
  unfold readA
  exact List.getD_append s t [] r h

lemma readA_append_new (s : Store) (v : List ℝ) :
    readA (s ++ [v]) (sizeA s) = v := by
  unfold readA sizeA
  rw [List.getD_append_right _ _ _ _ (le_refl _)]
  simp

lemma writeA_append_new (s : Store) (v w : List ℝ) :
    writeA (s ++ [v]) (sizeA s) w = s ++ [w] := by
  unfold writeA sizeA
  induction s with
  | nil => rfl
  | cons a t ih =>
    simp only [List.cons_append, List.length_cons, List.set]
    exact congrArg (a :: ·) ih

lemma readA_append4 (s : Store) (a b c d : List ℝ) :
    readA (s ++ [a, b, c, d]) (List.length s + 3) = d := by
  unfold readA
  rw [List.getD_append_right _ _ _ _ (by omega)]
  simp

/-- Closed form of the store-level discretizer: the input cell is never
written; the result is either the original store with the input reference
(identity branch) or the original store extended by the freshly allocated
arrays, with the result reference pointing at the last fresh cell. -/
lemma discretized_sequence_st_eq (s : Store) (rx : ℕ) (tx : String) (f m : ℕ)
    (norm : Bool) :
    discretized_sequence_st s rx tx f m norm =
      (let x0 := readA s rx
       if norm = false ∨ (numerical tx = true ∧
          count_unique x0 > len_discretized_values x0 tx f m) then
        if norm then
          let xa := x0.map (fun v => (v - npMean x0) / npStd x0)
          let xf := xa.filter (fun v => decide (|v| < (m : ℝ)))
          let xb := xa.map (fun v => (v - npMean xf) / npStd xf)
          (s ++ [xa, xf, xb, discretized_sequence x0 tx f m norm], sizeA s + 3)
        else (s ++ [discretized_sequence x0 tx f m norm], sizeA s)
      else (s, rx)) := by
  unfold discretized_sequence_st discretized_sequence
  dsimp only
  split
  case isFalse h => rfl
  case isTrue h =>
    cases norm with
    | false =>
      simp only [Bool.false_eq_true, if_false, allocA]
      rw [readA_append_new, writeA_append_new, readA_append_new, writeA_append_new]
    | true =>
      simp only [if_true, allocA]
      rw [readA_append_new, writeA_append_new, readA_append_new, writeA_append_new]
      simp [sizeA, List.append_assoc]
      rw [readA_append4]

/-- The store-level discretizer never changes an existing cell. -/
lemma discretized_sequence_st_frame (s : Store) (rx : ℕ) (tx : String)
    (f m : ℕ) (norm : Bool) (r : ℕ) (hr : r < sizeA s) :
    readA (discretized_sequence_st s rx tx f m norm).1 r = readA s r := by
  rw [discretized_sequence_st_eq]
  dsimp only
  split
  · split
    · exact readA_append_old _ _ _ hr
    · exact readA_append_old _ _ _ hr
  · rfl

lemma discretized_sequence_st_growth (s : Store) (rx : ℕ) (tx : String)
    (f m : ℕ) (norm : Bool) :
    sizeA s ≤ sizeA (discretized_sequence_st s rx tx f m norm).1 := by
  rw [discretized_sequence_st_eq]
  dsimp only
  split
  · split <;> simp [sizeA]
  · exact le_refl _

lemma discretized_sequence_st_ref_lt (s : Store) (rx : ℕ) (tx : String)
    (f m : ℕ) (norm : Bool) (hrx : rx < sizeA s) :
    (discretized_sequence_st s rx tx f m norm).2
      < sizeA (discretized_sequence_st s rx tx f m norm).1 := by
  rw [discretized_sequence_st_eq]
  dsimp only
  split
  · split <;> simp [sizeA]
  · exact hrx

/-- The store-level discretizer computes the pure discretizer: the result
reference holds `discretized_sequence` of the input cell's value. -/
lemma discretized_sequence_st_val (s : Store) (rx : ℕ) (tx : String)
    (f m : ℕ) (norm : Bool) :
    readA (discretized_sequence_st s rx tx f m norm).1
        (discretized_sequence_st s rx tx f m norm).2
      = discretized_sequence (readA s rx) tx f m norm := by
  rw [discretized_sequence_st_eq]
  dsimp only
  split
  case isTrue h =>
    split
    · exact readA_append4 s _ _ _ _
    · exact readA_append_new s _
  case isFalse h =>
    unfold discretized_sequence
    rw [if_neg h]

/-- `cds_score` at the store level: discretize both arrays through the
store (the only mutating code in the source file), then compute the
remaining, purely reading/allocating part from the values read. -/
noncomputable def cds_score_st (s : Store) (f m minc : ℕ) (rx ry : ℕ) :
    Store × Except CdsErr ℝ :=
  let p1 := discretized_sequence_st s rx NUMERICAL f m true
  let p2 := discretized_sequence_st p1.1 ry NUMERICAL f m true
  (p2.1, cds_core f m minc (readA p2.1 p1.2) (readA p2.1 ry) (readA p2.1 p2.2))

/-- `predict_proba` at the store level: both directional calls thread the
same store. -/
noncomputable def predict_proba_st (s : Store) (f m minc : ℕ) (ra rb : ℕ) :
    Store × Except CdsErr ℝ :=
  let q1 := cds_score_st s f m minc rb ra
  let q2 := cds_score_st q1.1 f m minc ra rb
  (q2.1, do
    let s1 ← q1.2
    let s2 ← q2.2
    pure (s1 - s2))

lemma cds_score_st_spec (s : Store) (f m c : ℕ) (rx ry : ℕ)
    (hrx : rx < sizeA s) (hry : ry < sizeA s) :
    sizeA s ≤ sizeA (cds_score_st s f m c rx ry).1
      ∧ (∀ r < sizeA s, readA (cds_score_st s f m c rx ry).1 r = readA s r)
      ∧ (cds_score_st s f m c rx ry).2
          = cds_score f m c (readA s rx) (readA s ry) := by
  unfold cds_score_st
  dsimp only
  set p1 := discretized_sequence_st s rx NUMERICAL f m true with hp1
  set p2 := discretized_sequence_st p1.1 ry NUMERICAL f m true with hp2
  have hg1 := discretized_sequence_st_growth s rx NUMERICAL f m true
  have hg2 := discretized_sequence_st_growth p1.1 ry NUMERICAL f m true
  have hlt1 := discretized_sequence_st_ref_lt s rx NUMERICAL f m true hrx
  have hfr2 : ∀ r < sizeA p1.1, readA p2.1 r = readA p1.1 r := fun r hr =>
    discretized_sequence_st_frame p1.1 ry NUMERICAL f m true r hr
  have hfr1 : ∀ r < sizeA s, readA p1.1 r = readA s r := fun r hr =>
    discretized_sequence_st_frame s rx NUMERICAL f m true r hr
  refine ⟨le_trans hg1 hg2, ?_, ?_⟩
  · intro r hr
    rw [hfr2 r (lt_of_lt_of_le hr hg1), hfr1 r hr]
  · have hv1 : readA p2.1 p1.2 = discretized_sequence (readA s rx) NUMERICAL f m true := by
      rw [hfr2 p1.2 hlt1, hp1]
      exact discretized_sequence_st_val s rx NUMERICAL f m true
    have hv2 : readA p2.1 p2.2 = discretized_sequence (readA s ry) NUMERICAL f m true := by
      rw [hp2]
      rw [discretized_sequence_st_val p1.1 ry NUMERICAL f m true,
        hfr1 ry hry]
    have hvy : readA p2.1 ry = readA s ry := by
      rw [hfr2 ry (lt_of_lt_of_le hry hg1), hfr1 ry hry]
    rw [hv1, hv2, hvy]
    rfl

/-- C10: scoring never mutates the caller's arrays: after
`predict_proba` both input references still hold exactly their original
contents, and the result equals the pure-function result on the values
initially stored. -/
theorem C10_no_input_mutation (s : Store) (f m c : ℕ) (ra rb : ℕ)
    (hra : ra < sizeA s) (hrb : rb < sizeA s) :
    (readA (cds_score_st s f m c ra rb).1 ra = readA s ra
        ∧ readA (cds_score_st s f m c ra rb).1 rb = readA s rb)
      ∧ readA (predict_proba_st s f m c ra rb).1 ra = readA s ra
      ∧ readA (predict_proba_st s f m c ra rb).1 rb = readA s rb
      ∧ (predict_proba_st s f m c ra rb).2
          = predict_proba f m c (readA s ra) (readA s rb) := by
  obtain ⟨hg1, hf1, hv1⟩ := cds_score_st_spec s f m c rb ra hrb hra
  obtain ⟨hg2, hf2, hv2⟩ := cds_score_st_spec (cds_score_st s f m c rb ra).1
    f m c ra rb (lt_of_lt_of_le hra hg1) (lt_of_lt_of_le hrb hg1)
  refine ⟨⟨(cds_score_st_spec s f m c ra rb hra hrb).2.1 ra hra,
    (cds_score_st_spec s f m c ra rb hra hrb).2.1 rb hrb⟩, ?_, ?_, ?_⟩
  all_goals unfold predict_proba_st
  all_goals dsimp only
  · rw [hf2 ra (lt_of_lt_of_le hra hg1), hf1 ra hra]
  · rw [hf2 rb (lt_of_lt_of_le hrb hg1), hf1 rb hrb]
  · rw [hv1, hv2, hf1 ra hra, hf1 rb hrb]
    rfl

/-- C10 witness: a two-cell heap holding the two input arrays. -/
theorem C10_witness :
    ((0 : ℕ) < sizeA [[(0 : ℝ), 1], [(2 : ℝ), 3]]
        ∧ (1 : ℕ) < sizeA [[(0 : ℝ), 1], [(2 : ℝ), 3]])
      ∧ readA (predict_proba_st [[(0 : ℝ), 1], [(2 : ℝ), 3]] 2 3 12 0 1).1 0
          = readA [[(0 : ℝ), 1], [(2 : ℝ), 3]] 0
      ∧ readA (predict_proba_st [[(0 : ℝ), 1], [(2 : ℝ), 3]] 2 3 12 0 1).1 1
          = readA [[(0 : ℝ), 1], [(2 : ℝ), 3]] 1 := by
  have h := C10_no_input_mutation [[(0 : ℝ), 1], [(2 : ℝ), 3]] 2 3 12 0 1
    (by decide) (by decide)
  exact ⟨⟨by decide, by decide⟩, h.2.1, h.2.2.1⟩

end CDSModel
